import Mathlib

/-!
# Verification of the poexam linting core

A shallow embedding of the word tokenizer (`src/words.rs`) and the two
spelling rules (`src/rules/spelling.rs`) of the poexam PO-file checker.

Strings are modelled as `List Char` (Rust `&str` is a sequence of Unicode
scalar values); byte offsets into the UTF-8 encoding are computed with
`Char.utf8Size`, which matches Rust's `char::len_utf8`.
-/

namespace Poexam

/-- UTF-8 byte length of a character sequence (Rust `str::len` on the
corresponding `&str`). -/
def utf8Len (cs : List Char) : Nat := (cs.map Char.utf8Size).sum

@[simp] theorem utf8Len_nil : utf8Len [] = 0 := rfl

@[simp] theorem utf8Len_cons (c : Char) (cs : List Char) :
    utf8Len (c :: cs) = c.utf8Size + utf8Len cs := by
  simp [utf8Len]

theorem utf8Len_append (a b : List Char) :
    utf8Len (a ++ b) = utf8Len a + utf8Len b := by
  induction a with
  | nil => simp
  | cons c cs ih => simp [ih]; ring

theorem one_le_utf8Size (c : Char) : 1 ≤ c.utf8Size := by
  have := Char.utf8Size_pos c
  omega

/-! ## Format Specifier Scanner

`c_format.rs` is not part of the sources at hand; the scanner is modelled
from the spec. -/

/-- Flag character of a printf conversion specifier: one of `- + space # 0`. -/
def isFlagChar (c : Char) : Bool :=
  c = '-' || c = '+' || c = ' ' || c = '#' || c = '0'

/-- Length modifier character of a printf conversion specifier
(`h`, `l`, `L`, `z`, `j`, `t`; taking them greedily also covers `hh`, `ll`). -/
def isLengthModifier (c : Char) : Bool :=
  c = 'h' || c = 'l' || c = 'L' || c = 'z' || c = 'j' || c = 't'

/-- Printable ASCII character, accepted as the terminal conversion character. -/
def isPrintableAscii (c : Char) : Bool :=
  0x20 ≤ c.toNat && c.toNat ≤ 0x7e

/-- Optional width of a conversion specifier: one or more digits, or a
single `*`. -/
def scanWidth (cs : List Char) : List Char :=
  match cs with
  | '*' :: r => r
  | _ => cs.dropWhile Char.isDigit

/-- Optional precision of a conversion specifier: a literal `.` followed by
zero or more digits or a single `*`. -/
def scanPrecision (cs : List Char) : List Char :=
  match cs with
  | '.' :: '*' :: r2 => r2
  | '.' :: r => r.dropWhile Char.isDigit
  | _ => cs

/-- Terminal conversion character: any printable character is accepted; if
none is found, the scan degrades to the end of the buffer. -/
def scanConversion (cs : List Char) : List Char :=
  match cs with
  | c :: r => if isPrintableAscii c then r else []
  | [] => []

/-- Modelled from the spec: `get_index_end_c_format(bytes, pos, len)` of
`c_format.rs` (not among the given sources).  Given the text just after a `%`
that is not part of a `%%` literal, it consumes flags, an optional width
(digits or a single `*`), an optional precision (`.` then digits or a single
`*`), optional length modifiers, and exactly one conversion character (any
printable character is accepted as terminal).  If no conversion character is
found before the end, it degrades to skipping to the end of the string.

Here the function returns the remaining suffix instead of the end index:
the caller recovers the end index as `pos + utf8Len input - utf8Len output`.
All characters the scanner consumes before the terminal are ASCII, and a
non-printable-ASCII character is not accepted as terminal (the scan then
degrades to end of buffer), so the returned suffix always starts at a
character boundary. -/
def get_index_end_c_format (cs : List Char) : List Char :=
  scanConversion
    (List.dropWhile isLengthModifier
      (scanPrecision (scanWidth (cs.dropWhile isFlagChar))))

theorem scanWidth_suffix (cs : List Char) : scanWidth cs <:+ cs := by
  unfold scanWidth
  split
  · exact List.suffix_cons _ _
  · exact List.dropWhile_suffix _

theorem scanPrecision_suffix (cs : List Char) : scanPrecision cs <:+ cs := by
  unfold scanPrecision
  split
  · exact (List.suffix_cons _ _).trans (List.suffix_cons _ _)
  · exact (List.dropWhile_suffix _).trans (List.suffix_cons _ _)
  · exact List.suffix_refl _

theorem scanConversion_suffix (cs : List Char) : scanConversion cs <:+ cs := by
  unfold scanConversion
  split
  · split
    · exact List.suffix_cons _ _
    · exact List.nil_suffix
  · exact List.nil_suffix

theorem get_index_end_c_format_suffix (cs : List Char) :
    get_index_end_c_format cs <:+ cs :=
  (scanConversion_suffix _).trans
    ((List.dropWhile_suffix _).trans
      ((scanPrecision_suffix _).trans
        ((scanWidth_suffix _).trans (List.dropWhile_suffix _))))

/-- A nonempty scanner result is strictly shorter than the input: the
terminal conversion character was consumed. -/
theorem get_index_end_c_format_lt (cs : List Char)
    (h : get_index_end_c_format cs ≠ []) :
    (get_index_end_c_format cs).length < cs.length := by
  have hsuf := (List.dropWhile_suffix isFlagChar (l := cs)).trans (List.suffix_refl cs)
  have h1 : scanWidth (cs.dropWhile isFlagChar) <:+ cs :=
    (scanWidth_suffix _).trans (List.dropWhile_suffix _)
  have h2 : scanPrecision (scanWidth (cs.dropWhile isFlagChar)) <:+ cs :=
    (scanPrecision_suffix _).trans h1
  have h3 : List.dropWhile isLengthModifier
      (scanPrecision (scanWidth (cs.dropWhile isFlagChar))) <:+ cs :=
    (List.dropWhile_suffix _).trans h2
  unfold get_index_end_c_format at h ⊢
  revert h
  unfold scanConversion
  split
  · rename_i c r heq
    split
    · intro _
      have : c :: r <:+ cs := heq ▸ h3
      have hlen := this.length_le
      simp at hlen
      simp
      omega
    · intro h; exact absurd rfl h
  · intro h; exact absurd rfl h

/-! ## Word Tokenizer (`src/words.rs`) -/

/-- Rust's Unicode-aware `char::is_alphanumeric`, restricted to the character
ranges exercised by this repository: exact on ASCII, and extended with the
Latin-1 / Latin Extended letters (minus `×` and `÷`), Cyrillic, and the main
CJK Unified Ideographs block. -/
def isAlphanumeric (c : Char) : Bool :=
  c.isAlphanum
  || (0xC0 ≤ c.toNat && c.toNat ≤ 0x24F && c.toNat ≠ 0xD7 && c.toNat ≠ 0xF7)
  || (0x400 ≤ c.toNat && c.toNat ≤ 0x4FF)
  || (0x4E00 ≤ c.toNat && c.toNat ≤ 0x9FFF)

/-- One call of `WordPos::next` (`src/words.rs` lines 35-72).

State: `pos` is the byte offset of the head of `cs` in the original string;
`idxStart`/`idxEnd` are the loop-local `idx_start`/`idx_end` accumulators
(parameters so the loop can be expressed by recursion on `cs`).
`skip` is the `skip_c_format` flag (`format == "c"`).

Returns `none` when the iterator is exhausted, or `some (span, pos', rest)`
with the yielded span and the state after the call.  The byte tests
`bytes[pos] == b'%'` of the source are expressed as character tests: at a
character boundary of valid UTF-8, the byte equals `%` iff the character
there is `%`. -/
def nextAux (skip : Bool) (pos : Nat) (idxStart idxEnd : Option Nat) :
    List Char → Option ((Nat × Nat) × Nat × List Char)
  | [] =>
    match idxStart, idxEnd with
    | some s, some e => some ((s, e), pos, [])
    | _, _ => none
  | c :: cs =>
    if skip && idxStart.isNone && c = '%' then
      if cs.head? = some '%' then
        if cs.tail = [] then none
        else nextAux skip (pos + 2) idxStart idxEnd cs.tail
      else
        if get_index_end_c_format cs = [] then none
        else
          nextAux skip
            (pos + 1 + (utf8Len cs - utf8Len (get_index_end_c_format cs)))
            idxStart idxEnd (get_index_end_c_format cs)
    else
      if isAlphanumeric c || (idxStart.isSome && c = '-') then
        nextAux skip (pos + c.utf8Size) (some (idxStart.getD pos))
          (some (pos + c.utf8Size)) cs
      else if idxStart.isSome then
        match idxStart, idxEnd with
        | some s, some e => some ((s, e), pos, c :: cs)
        | _, _ => none
      else
        nextAux skip (pos + c.utf8Size) idxStart idxEnd cs
termination_by cs => cs.length
decreasing_by
  · have : cs.tail.length ≤ cs.length := by
      cases cs <;> simp
    simp
    omega
  · rename_i h
    have := get_index_end_c_format_lt cs h
    simp
    omega
  · simp
  · simp

/-- Collect the spans produced by repeatedly calling `next`, with explicit
fuel (each yielding call consumes at least one character, so
`length + 1` fuel is enough; see `wordsFrom_fuel`). -/
def wordsFrom (skip : Bool) : Nat → Nat → List Char → List (Nat × Nat)
  | 0, _, _ => []
  | fuel + 1, pos, cs =>
    match nextAux skip pos none none cs with
    | none => []
    | some (sp, pos', rest) => sp :: wordsFrom skip fuel pos' rest

/-- All word spans of a string: the full output of the `WordPos` iterator
constructed by `WordPos::new` (`pos = 0`, no word in progress). -/
def words (skip : Bool) (cs : List Char) : List (Nat × Nat) :=
  wordsFrom skip (cs.length + 1) 0 cs

/-- `i` is a UTF-8 character boundary of (the encoding of) `cs`. -/
def IsBoundary (cs : List Char) (i : Nat) : Prop :=
  ∃ pre suf, cs = pre ++ suf ∧ i = utf8Len pre


/-! ## Spelling rules (`src/rules/spelling.rs`) -/


/-- Rust string slice `&s[st..en]` by byte offsets: the characters whose
byte ranges fall inside the half-open interval.  Total in this model; the
Rust operation panics when `st`/`en` is not a character boundary, which
never happens for tokenizer spans (see the safety theorem). -/
def sliceBytes (st en : Nat) : List Char → Nat → List Char
  | [], _ => []
  | c :: cs, off =>
    if en ≤ off then []
    else if st ≤ off then c :: sliceBytes st en cs (off + c.utf8Size)
    else sliceBytes st en cs (off + c.utf8Size)

/-- Extract the word at a tokenizer span: `&msgid[start..end]`. -/
def wordAt (s : List Char) (sp : Nat × Nat) : List Char :=
  sliceBytes sp.1 sp.2 s 0

/-- Lexicographic comparison of strings by Unicode code point.  Rust's
`sort_unstable` on `&str` compares UTF-8 bytes lexicographically, which
coincides with code-point lexicographic order. -/
def lexLe : List Char → List Char → Bool
  | [], _ => true
  | _ :: _, [] => false
  | a :: as, b :: bs =>
    if a.toNat < b.toNat then true
    else if b.toNat < a.toNat then false
    else lexLe as bs

/-- The order used to sort the misspelled-word list. -/
def wordLe (a b : List Char) : Prop := lexLe a b = true

instance : DecidableRel wordLe := fun a b => by
  unfold wordLe; infer_instance

/-- Rust `Vec::join(", ")` on a list of strings. -/
def joinComma : List (List Char) → List Char
  | [] => []
  | [w] => w
  | w :: ws => w ++ [',', ' '] ++ joinComma ws

/-- Diagnostic severities (`src/diagnostic.rs`, consumed through the rule
interface; only the variants the spec names). -/
inductive Severity where
  | Error
  | Warning
  | Info
deriving DecidableEq

/-- A PO catalog entry, restricted to the field the rules read: the
`format` tag (`"c"` or empty). -/
structure Entry where
  format : List Char

/-- Modelled from the spec: the slice of `Checker` (`src/checker.rs`, not
among the given sources) that the spelling rules consume — the optional
source-language and translation-language dictionaries, each an opaque
recognition predicate `check(word) -> bool`. -/
structure Checker where
  dict_id : Option (List Char → Bool)
  dict_str : Option (List Char → Bool)

/-- Modelled from the spec: the diagnostic record materialized by
`Checker::report_msg` — the message, the two full original strings and the
flagged spans in each.  `check_msg` returns the list of `report_msg` calls
it makes instead of mutating the checker. -/
structure Diagnostic where
  message : List Char
  source : List Char
  posSource : List (Nat × Nat)
  translated : List Char
  posTranslated : List (Nat × Nat)
deriving DecidableEq

/-- One iteration of the `for (start, end) in WordPos::new(..)` loop body
shared by both spelling rules (`src/rules/spelling.rs` lines 49-58 and
113-122).  The accumulator is `(misspelled_words, hash_words, pos_words)`;
the `HashSet` is modelled as a list queried by membership. -/
def spellStep (dict : List Char → Bool) (s : List Char)
    (acc : List (List Char) × List (List Char) × List (Nat × Nat))
    (sp : Nat × Nat) :
    List (List Char) × List (List Char) × List (Nat × Nat) :=
  let word := wordAt s sp
  if word ∈ acc.2.1 then
    (acc.1, acc.2.1, acc.2.2 ++ [sp])
  else if ! dict word then
    (acc.1 ++ [word], word :: acc.2.1, acc.2.2 ++ [sp])
  else
    acc

/-- The accumulators after the whole tokenizer loop of a spelling rule. -/
def spellAcc (dict : List Char → Bool) (format s : List Char) :
    List (List Char) × List (List Char) × List (Nat × Nat) :=
  (words (format == ['c']) s).foldl (spellStep dict s) ([], [], [])

/-- `misspelled_words.sort_unstable()`: the word list in ascending Unicode
code-point order. -/
def sortWords (ws : List (List Char)) : List (List Char) :=
  List.insertionSort wordLe ws

namespace SpellingIdRule

def name : List Char := "spelling-id".toList

def is_default : Bool := false

def severity : Severity := Severity.Info

/-- The accumulators of `SpellingIdRule::check_msg` after the
`if let Some(dict) = &checker.dict_id` block: untouched when the source
dictionary is absent. -/
def acc (checker : Checker) (entry : Entry) (msgid : List Char) :
    List (List Char) × List (List Char) × List (Nat × Nat) :=
  match checker.dict_id with
  | some dict => spellAcc dict entry.format msgid
  | none => ([], [], [])

/-- `SpellingIdRule::check_msg` (`src/rules/spelling.rs` lines 44-74):
check spelling of the source string against `dict_id`; on misspelled words,
report one diagnostic with the sorted deduplicated word list and the spans
flagged in the source string. -/
def check_msg (checker : Checker) (entry : Entry) (msgid msgstr : List Char) :
    List Diagnostic :=
  if (acc checker entry msgid).1 = [] then []
  else
    [{ message := "misspelled words in source: ".toList
         ++ joinComma (sortWords (acc checker entry msgid).1),
       source := msgid,
       posSource := (acc checker entry msgid).2.2,
       translated := msgstr,
       posTranslated := [] }]

end SpellingIdRule

namespace SpellingStrRule

def name : List Char := "spelling-str".toList

def is_default : Bool := false

def severity : Severity := Severity.Info

/-- The accumulators of `SpellingStrRule::check_msg` after the
`if let Some(dict) = &checker.dict_str` block: untouched when the
translation dictionary is absent. -/
def acc (checker : Checker) (entry : Entry) (msgstr : List Char) :
    List (List Char) × List (List Char) × List (Nat × Nat) :=
  match checker.dict_str with
  | some dict => spellAcc dict entry.format msgstr
  | none => ([], [], [])

/-- `SpellingStrRule::check_msg` (`src/rules/spelling.rs` lines 108-138):
check spelling of the translated string against `dict_str`; on misspelled
words, report one diagnostic with the sorted deduplicated word list and the
spans flagged in the translated string. -/
def check_msg (checker : Checker) (entry : Entry) (msgid msgstr : List Char) :
    List Diagnostic :=
  if (acc checker entry msgstr).1 = [] then []
  else
    [{ message := "misspelled words in translation: ".toList
         ++ joinComma (sortWords (acc checker entry msgstr).1),
       source := msgid,
       posSource := [],
       translated := msgstr,
       posTranslated := (acc checker entry msgstr).2.2 }]

end SpellingStrRule

/-! Concrete checks of the tokenizer against the repository's tests. -/

example : words false "".toList = [] := by
  simp [words, wordsFrom, nextAux]

example : words false " ,.!? ".toList = [] := by
  simp [words, wordsFrom, nextAux, isAlphanumeric]

example : words false "%05d".toList = [(1, 4)] := by
  simp [words, wordsFrom, nextAux, isAlphanumeric]; decide

example : words true "%05d".toList = [] := by
  simp [words, wordsFrom, nextAux, isAlphanumeric, get_index_end_c_format,
    scanWidth, scanPrecision, scanConversion, isFlagChar, isLengthModifier,
    isPrintableAscii, utf8Len]

example : words false "test-word".toList = [(0, 9)] := by
  simp [words, wordsFrom, nextAux, isAlphanumeric]; decide

example : words true "%%".toList = [] := by
  simp [words, wordsFrom, nextAux]

example : words false "Hello, world! %llu test-word 42.".toList =
    [(0, 5), (7, 12), (15, 18), (19, 28), (29, 31)] := by
  simp [words, wordsFrom, nextAux, isAlphanumeric]; decide

example : words true "Hello, world! %llu test-word 42.".toList =
    [(0, 5), (7, 12), (19, 28), (29, 31)] := by
  simp [words, wordsFrom, nextAux, isAlphanumeric, get_index_end_c_format,
    scanWidth, scanPrecision, scanConversion, isFlagChar, isLengthModifier,
    isPrintableAscii, utf8Len]; decide

example : words false "héllo, мир! %lld 你好".toList =
    [(0, 6), (8, 14), (17, 20), (21, 27)] := by
  simp [words, wordsFrom, nextAux, isAlphanumeric]; decide

example : words true "héllo, мир! %lld 你好".toList =
    [(0, 6), (8, 14), (21, 27)] := by
  simp [words, wordsFrom, nextAux, isAlphanumeric, get_index_end_c_format,
    scanWidth, scanPrecision, scanConversion, isFlagChar, isLengthModifier,
    isPrintableAscii, utf8Len]; decide

/-! ## Order lemmas for the word sort -/

theorem lexLe_total : ∀ a b : List Char, lexLe a b = true ∨ lexLe b a = true
  | [], _ => Or.inl rfl
  | _ :: _, [] => Or.inr rfl
  | a :: as, b :: bs => by
    unfold lexLe
    rcases Nat.lt_trichotomy a.toNat b.toNat with h | h | h
    · left
      simp [h]
    · have h1 : ¬a.toNat < b.toNat := by omega
      have h2 : ¬b.toNat < a.toNat := by omega
      simp only [if_neg h1, if_neg h2]
      exact lexLe_total as bs
    · right
      simp [h]

theorem lexLe_trans : ∀ a b c : List Char,
    lexLe a b = true → lexLe b c = true → lexLe a c = true
  | [], _, _, _, _ => rfl
  | _ :: _, [], _, h, _ => by simp [lexLe] at h
  | _ :: _, _ :: _, [], _, h => by simp [lexLe] at h
  | a :: as, b :: bs, c :: cs, h1, h2 => by
    unfold lexLe at h1 h2 ⊢
    by_cases hab : a.toNat < b.toNat
    · by_cases hbc : b.toNat < c.toNat
      · have : a.toNat < c.toNat := by omega
        simp [this]
      · have hcb : ¬c.toNat < b.toNat := by
          intro hcb
          simp [if_neg hbc, if_pos hcb] at h2
        have : a.toNat < c.toNat := by omega
        simp [this]
    · have hba : ¬b.toNat < a.toNat := by
        intro hba
        simp [if_neg hab, if_pos hba] at h1
      simp only [if_neg hab, if_neg hba] at h1
      by_cases hbc : b.toNat < c.toNat
      · have : a.toNat < c.toNat := by omega
        simp [this]
      · have hcb : ¬c.toNat < b.toNat := by
          intro hcb
          simp [if_neg hbc, if_pos hcb] at h2
        simp only [if_neg hbc, if_neg hcb] at h2
        have hac : ¬a.toNat < c.toNat := by omega
        have hca : ¬c.toNat < a.toNat := by omega
        simp only [if_neg hac, if_neg hca]
        exact lexLe_trans as bs cs h1 h2

instance : IsTotal (List Char) wordLe :=
  ⟨fun a b => lexLe_total a b⟩

instance : IsTrans (List Char) wordLe :=
  ⟨fun a b c => lexLe_trans a b c⟩

/-! ## Tokenizer span lemmas -/

/-- Behaviour of `next` while a word is in progress (`idx_start = some a0`):
the invariant `idx_end = some pos` holds whenever a word is in progress, the
call always yields a span `(a0, b)` with `pos ≤ b`, the characters consumed
are a prefix `pre` of the remaining input, the new cursor sits just past
them, and the span's end is a boundary of the remaining input. -/
theorem nextAux_some_spec (skip : Bool) :
    ∀ (cs : List Char) (pos a0 : Nat), ∃ b pre rest,
      nextAux skip pos (some a0) (some pos) cs
        = some ((a0, b), pos + utf8Len pre, rest) ∧
      cs = pre ++ rest ∧ pos ≤ b ∧ b ≤ pos + utf8Len pre ∧
      ∃ p q, cs = p ++ q ∧ b = pos + utf8Len p := by
  intro cs
  induction cs with
  | nil =>
    intro pos a0
    refine ⟨pos, [], [], ?_, by simp, le_refl _, by simp, [], [], by simp, by simp⟩
    rw [nextAux]
    simp
  | cons c cs ih =>
    intro pos a0
    rw [nextAux]
    simp only [Option.isNone_some, Bool.and_false, Bool.false_and,
      Bool.false_eq_true, if_false, Option.isSome_some, Bool.true_and]
    by_cases hw : (isAlphanumeric c || decide (c = '-')) = true
    · rw [if_pos hw]
      obtain ⟨b, pre, rest, heq, hcs, hb1, hb2, p, q, hpq, hbp⟩ :=
        ih (pos + c.utf8Size) a0
      refine ⟨b, c :: pre, rest, ?_, by simp [hcs], ?_, ?_, c :: p, q,
        by simp [hpq], ?_⟩
      · simpa [Nat.add_assoc] using heq
      · have := one_le_utf8Size c
        omega
      · simp only [utf8Len_cons]
        omega
      · simp only [utf8Len_cons]
        omega
    · rw [if_neg hw]
      simp only [if_true]
      exact ⟨pos, [], c :: cs, by simp, by simp, le_refl _, by simp, [],
        c :: cs, by simp, by simp⟩

/-- Behaviour of one full `next` call from the no-word-in-progress state
(`idx_start = idx_end = none`, as set at the top of `next`): either the
iterator is exhausted, or it yields a span `(a, b)` with `pos ≤ a < b`,
both offsets boundaries of the remaining input, consuming a nonempty
prefix `pre` (so iteration is finite) and leaving the cursor at
`pos + utf8Len pre`, at or past the span's end. -/
theorem nextAux_none_spec (skip : Bool) :
    ∀ (n : Nat) (cs : List Char), cs.length ≤ n → ∀ pos : Nat,
      nextAux skip pos none none cs = none ∨
      ∃ a b pre rest,
        nextAux skip pos none none cs = some ((a, b), pos + utf8Len pre, rest) ∧
        cs = pre ++ rest ∧ rest.length < cs.length ∧
        pos ≤ a ∧ a < b ∧ b ≤ pos + utf8Len pre ∧
        (∃ p q, cs = p ++ q ∧ a = pos + utf8Len p) ∧
        (∃ p q, cs = p ++ q ∧ b = pos + utf8Len p) := by
  intro n
  induction n with
  | zero =>
    intro cs hlen pos
    have : cs = [] := List.length_eq_zero.mp (Nat.le_zero.mp hlen)
    subst this
    left
    rw [nextAux.eq_def]
  | succ n ih =>
    intro cs hlen pos
    match cs with
    | [] =>
      left
      rw [nextAux.eq_def]
    | c :: cs' =>
      rw [nextAux.eq_def]
      dsimp only
      simp only [List.length_cons, Nat.succ_le_succ_iff] at hlen
      by_cases hc : (skip && (none : Option Nat).isNone && decide (c = '%')) = true
      · -- C-format skip branch
        have hcp : c = '%' := by
          simp only [Bool.and_eq_true, decide_eq_true_eq] at hc
          exact hc.2
        rw [if_pos hc]
        subst hcp
        by_cases hpc : cs'.head? = some '%'
        · rw [if_pos hpc]
          obtain ⟨cs2, hcs2⟩ : ∃ cs2, cs' = '%' :: cs2 := by
            cases cs' with
            | nil => simp at hpc
            | cons d t =>
              simp only [List.head?_cons, Option.some_inj] at hpc
              exact ⟨t, by rw [hpc]⟩
          subst hcs2
          simp only [List.tail_cons, List.length_cons] at hlen ⊢
          by_cases h2 : cs2 = []
          · rw [if_pos h2]
            exact Or.inl rfl
          · rw [if_neg h2]
            rcases ih cs2 (by omega) (pos + 2) with hnone | hsome
            · exact Or.inl hnone
            · obtain ⟨a, b, pre, rest, heq, hcs, hrl, hpa, hab, hbp, ⟨p, q, hpq, hap⟩,
                ⟨p', q', hpq', hbp'⟩⟩ := hsome
              right
              have hpct : ('%' : Char).utf8Size = 1 := by decide
              have hoff : pos + 2 + utf8Len pre = pos + utf8Len ('%' :: '%' :: pre) := by
                simp only [utf8Len_cons, hpct]
                omega
              refine ⟨a, b, '%' :: '%' :: pre, rest, by rw [heq, hoff],
                by simp [hcs], by omega, by omega, hab, ?_,
                ⟨'%' :: '%' :: p, q, by simp [hpq], ?_⟩,
                ⟨'%' :: '%' :: p', q', by simp [hpq'], ?_⟩⟩
              · simp only [utf8Len_cons, hpct]
                omega
              · simp only [utf8Len_cons, hpct]
                omega
              · simp only [utf8Len_cons, hpct]
                omega
        · rw [if_neg hpc]
          by_cases hr : get_index_end_c_format cs' = []
          · rw [if_pos hr]
            exact Or.inl rfl
          · rw [if_neg hr]
            obtain ⟨pre2, hpre2⟩ := get_index_end_c_format_suffix cs'
            have hlt := get_index_end_c_format_lt cs' hr
            have hulen : utf8Len cs'
                = utf8Len pre2 + utf8Len (get_index_end_c_format cs') := by
              conv_lhs => rw [← hpre2]
              rw [utf8Len_append]
            have hpct : ('%' : Char).utf8Size = 1 := by decide
            have hoff : pos + 1 + (utf8Len cs' - utf8Len (get_index_end_c_format cs'))
                = pos + utf8Len ('%' :: pre2) := by
              simp only [utf8Len_cons, hpct]
              omega
            rcases ih (get_index_end_c_format cs') (by omega)
                (pos + 1 + (utf8Len cs' - utf8Len (get_index_end_c_format cs')))
              with hnone | hsome
            · exact Or.inl hnone
            · obtain ⟨a, b, pre, rest, heq, hcs, hrl, hpa, hab, hbp, ⟨p, q, hpq, hap⟩,
                ⟨p', q', hpq', hbp'⟩⟩ := hsome
              right
              have hoff2 : pos + 1 + (utf8Len cs' - utf8Len (get_index_end_c_format cs'))
                    + utf8Len pre
                  = pos + utf8Len ('%' :: pre2 ++ pre) := by
                simp only [utf8Len_cons, utf8Len_append, hpct]
                omega
              refine ⟨a, b, '%' :: pre2 ++ pre, rest, by rw [heq, hoff2], ?_, ?_,
                by omega, hab, ?_, ⟨'%' :: pre2 ++ p, q, ?_, ?_⟩,
                ⟨'%' :: pre2 ++ p', q', ?_, ?_⟩⟩
              · rw [hcs] at hpre2
                simp [← hpre2]
              · have hrl2 : rest.length < (get_index_end_c_format cs').length := hrl
                simp only [List.length_cons]
                omega
              · rw [hoff] at hbp
                simp only [utf8Len_cons, utf8Len_append, hpct] at hbp ⊢
                omega
              · rw [hpq] at hpre2
                simp [← hpre2]
              · rw [hoff] at hap
                simp only [utf8Len_cons, utf8Len_append, hpct] at hap ⊢
                omega
              · rw [hpq'] at hpre2
                simp [← hpre2]
              · rw [hoff] at hbp'
                simp only [utf8Len_cons, utf8Len_append, hpct] at hbp' ⊢
                omega
      · -- ordinary character branch
        rw [if_neg hc]
        by_cases hw : isAlphanumeric c = true
        · have hcond : (isAlphanumeric c
              || ((none : Option Nat).isSome && decide (c = '-'))) = true := by
            simp [hw]
          rw [if_pos hcond]
          simp only [Option.getD_none]
          obtain ⟨b, pre, rest, heq, hcs, hb1, hb2, p, q, hpq, hbp⟩ :=
            nextAux_some_spec skip cs' (pos + c.utf8Size) pos
          right
          have h1 := one_le_utf8Size c
          have hoff : pos + c.utf8Size + utf8Len pre = pos + utf8Len (c :: pre) := by
            simp only [utf8Len_cons]
            omega
          have hrl : rest.length ≤ cs'.length := by
            rw [hcs]
            simp
          refine ⟨pos, b, c :: pre, rest, by rw [heq, hoff], by simp [hcs],
            by simp; omega, le_refl _, by omega, ?_,
            ⟨[], c :: cs', by simp, by simp⟩, ⟨c :: p, q, by simp [hpq], ?_⟩⟩
          · simp only [utf8Len_cons]
            omega
          · simp only [utf8Len_cons]
            omega
        · have hcond : ¬(isAlphanumeric c
              || ((none : Option Nat).isSome && decide (c = '-'))) = true := by
            simp [hw]
          rw [if_neg hcond]
          have h2 : ¬((none : Option Nat).isSome = true) := by simp
          rw [if_neg h2]
          rcases ih cs' hlen (pos + c.utf8Size) with hnone | hsome
          · exact Or.inl hnone
          · obtain ⟨a, b, pre, rest, heq, hcs, hrl, hpa, hab, hbp, ⟨p, q, hpq, hap⟩,
              ⟨p', q', hpq', hbp'⟩⟩ := hsome
            right
            have h1 := one_le_utf8Size c
            have hoff : pos + c.utf8Size + utf8Len pre = pos + utf8Len (c :: pre) := by
              simp only [utf8Len_cons]
              omega
            refine ⟨a, b, c :: pre, rest, by rw [heq, hoff], by simp [hcs],
              by simp; omega, by omega, hab, ?_, ⟨c :: p, q, by simp [hpq], ?_⟩,
              ⟨c :: p', q', by simp [hpq'], ?_⟩⟩
            · simp only [utf8Len_cons]
              omega
            · simp only [utf8Len_cons]
              omega
            · simp only [utf8Len_cons]
              omega

/-- Every span collected by the iterator loop satisfies the cursor lower
bound, is nonempty, stays within the remaining input's byte range, and both
endpoints are boundaries of the remaining input. -/
theorem wordsFrom_mem_spec (skip : Bool) :
    ∀ (fuel pos : Nat) (cs : List Char), ∀ sp ∈ wordsFrom skip fuel pos cs,
      pos ≤ sp.1 ∧ sp.1 < sp.2 ∧ sp.2 ≤ pos + utf8Len cs ∧
      (∃ p q, cs = p ++ q ∧ sp.1 = pos + utf8Len p) ∧
      (∃ p q, cs = p ++ q ∧ sp.2 = pos + utf8Len p) := by
  intro fuel
  induction fuel with
  | zero =>
    intro pos cs sp h
    simp [wordsFrom] at h
  | succ fuel ih =>
    intro pos cs sp h
    rw [wordsFrom] at h
    rcases nextAux_none_spec skip cs.length cs (le_refl _) pos with hnone | hsome
    · rw [hnone] at h
      simp at h
    · obtain ⟨a, b, pre, rest, heq, hcs, hrl, hpa, hab, hbp, hA, hB⟩ := hsome
      rw [heq] at h
      dsimp only at h
      have hcl : utf8Len cs = utf8Len pre + utf8Len rest := by
        rw [hcs, utf8Len_append]
      rcases List.mem_cons.mp h with h | h
      · subst h
        exact ⟨hpa, hab, by dsimp only; omega, hA, hB⟩
      · obtain ⟨h1, h2, h3, ⟨p, q, hpq, hp⟩, ⟨p', q', hpq', hp'⟩⟩ :=
          ih (pos + utf8Len pre) rest sp h
        refine ⟨by omega, h2, by omega, ⟨pre ++ p, q, ?_, ?_⟩,
          ⟨pre ++ p', q', ?_, ?_⟩⟩
        · rw [hcs, hpq, List.append_assoc]
        · rw [utf8Len_append]
          omega
        · rw [hcs, hpq', List.append_assoc]
        · rw [utf8Len_append]
          omega

/-- Consecutive spans collected by the iterator loop do not overlap. -/
theorem wordsFrom_pairwise (skip : Bool) :
    ∀ (fuel pos : Nat) (cs : List Char),
      List.Pairwise (fun a b : Nat × Nat => a.2 ≤ b.1)
        (wordsFrom skip fuel pos cs) := by
  intro fuel
  induction fuel with
  | zero =>
    intro pos cs
    simp [wordsFrom]
  | succ fuel ih =>
    intro pos cs
    rw [wordsFrom]
    rcases nextAux_none_spec skip cs.length cs (le_refl _) pos with hnone | hsome
    · rw [hnone]
      exact List.Pairwise.nil
    · obtain ⟨a, b, pre, rest, heq, hcs, hrl, hpa, hab, hbp, hA, hB⟩ := hsome
      rw [heq]
      dsimp only
      refine List.Pairwise.cons ?_ (ih (pos + utf8Len pre) rest)
      intro sp hsp
      have hlow := (wordsFrom_mem_spec skip fuel (pos + utf8Len pre) rest sp hsp).1
      dsimp only
      omega

/-- The iterator yields at most one span per character of the input. -/
theorem wordsFrom_length_le (skip : Bool) :
    ∀ (fuel pos : Nat) (cs : List Char),
      (wordsFrom skip fuel pos cs).length ≤ cs.length := by
  intro fuel
  induction fuel with
  | zero =>
    intro pos cs
    simp [wordsFrom]
  | succ fuel ih =>
    intro pos cs
    rw [wordsFrom]
    rcases nextAux_none_spec skip cs.length cs (le_refl _) pos with hnone | hsome
    · rw [hnone]
      simp
    · obtain ⟨a, b, pre, rest, heq, hcs, hrl, hpa, hab, hbp, hA, hB⟩ := hsome
      rw [heq]
      dsimp only
      have := ih (pos + utf8Len pre) rest
      simp only [List.length_cons]
      omega

/-- Specialization of `wordsFrom_mem_spec` to a whole tokenizer run. -/
theorem words_mem_spec (skip : Bool) (cs : List Char) :
    ∀ sp ∈ words skip cs,
      sp.1 < sp.2 ∧ sp.2 ≤ utf8Len cs ∧ IsBoundary cs sp.1 ∧ IsBoundary cs sp.2 := by
  intro sp h
  obtain ⟨h1, h2, h3, ⟨p, q, hpq, hp⟩, ⟨p', q', hpq', hp'⟩⟩ :=
    wordsFrom_mem_spec skip (cs.length + 1) 0 cs sp h
  exact ⟨h2, by omega, ⟨p, q, hpq, by omega⟩, ⟨p', q', hpq', by omega⟩⟩

/-! ## Spelling-rule loop invariants -/

/-- Invariant of the `for (start, end) in WordPos::new(..)` fold shared by
both rules: the misspelled-word list stays duplicate-free, the hash set and
the word list hold the same words, every recorded word fails the dictionary,
and the position list receives exactly one entry per span whose word fails
the dictionary. -/
theorem spellStep_fold_inv (dict : List Char → Bool) (s : List Char) :
    ∀ (l : List (Nat × Nat)) (mis hash : List (List Char))
      (posw : List (Nat × Nat)),
      mis.Nodup → (∀ w, w ∈ hash ↔ w ∈ mis) → (∀ w ∈ mis, dict w = false) →
      (l.foldl (spellStep dict s) (mis, hash, posw)).1.Nodup ∧
      (∀ w, w ∈ (l.foldl (spellStep dict s) (mis, hash, posw)).2.1 ↔
        w ∈ (l.foldl (spellStep dict s) (mis, hash, posw)).1) ∧
      (∀ w ∈ (l.foldl (spellStep dict s) (mis, hash, posw)).1, dict w = false) ∧
      (l.foldl (spellStep dict s) (mis, hash, posw)).2.2 =
        posw ++ l.filter (fun sp => ! dict (wordAt s sp)) := by
  intro l
  induction l with
  | nil =>
    intro mis hash posw h1 h2 h3
    simpa using ⟨h1, h2, h3⟩
  | cons sp l ihl =>
    intro mis hash posw h1 h2 h3
    rw [List.foldl_cons]
    by_cases hm : wordAt s sp ∈ hash
    · have hd : dict (wordAt s sp) = false := h3 _ ((h2 _).mp hm)
      have hstep : spellStep dict s (mis, hash, posw) sp
          = (mis, hash, posw ++ [sp]) := by
        simp [spellStep, hm]
      rw [hstep]
      obtain ⟨g1, g2, g3, g4⟩ := ihl mis hash (posw ++ [sp]) h1 h2 h3
      refine ⟨g1, g2, g3, ?_⟩
      rw [g4, List.filter_cons]
      simp [hd]
    · cases hd : dict (wordAt s sp) with
      | false =>
        have hstep : spellStep dict s (mis, hash, posw) sp
            = (mis ++ [wordAt s sp], wordAt s sp :: hash, posw ++ [sp]) := by
          simp [spellStep, hm, hd]
        rw [hstep]
        have hnm : wordAt s sp ∉ mis := fun hx => hm ((h2 _).mpr hx)
        obtain ⟨g1, g2, g3, g4⟩ := ihl (mis ++ [wordAt s sp])
          (wordAt s sp :: hash) (posw ++ [sp])
          (by simp [List.nodup_append, h1, hnm])
          (by
            intro w
            simp only [List.mem_cons, List.mem_append, List.mem_singleton]
            rw [h2 w]
            tauto)
          (by
            intro w hw
            rcases List.mem_append.mp hw with hw | hw
            · exact h3 w hw
            · rw [List.mem_singleton.mp hw]
              exact hd)
        refine ⟨g1, g2, g3, ?_⟩
        rw [g4, List.filter_cons]
        simp [hd]
      | true =>
        have hstep : spellStep dict s (mis, hash, posw) sp = (mis, hash, posw) := by
          simp [spellStep, hm, hd]
        rw [hstep]
        obtain ⟨g1, g2, g3, g4⟩ := ihl mis hash posw h1 h2 h3
        refine ⟨g1, g2, g3, ?_⟩
        rw [g4, List.filter_cons]
        simp [hd]

/-- The misspelled-word list accumulated by a rule invocation has no
duplicate entries. -/
theorem spellAcc_nodup (dict : List Char → Bool) (format s : List Char) :
    (spellAcc dict format s).1.Nodup :=
  (spellStep_fold_inv dict s (words (format == ['c']) s) [] [] []
    List.nodup_nil (by simp) (by simp)).1

/-- Every word recorded by a rule invocation fails the dictionary. -/
theorem spellAcc_dict_false (dict : List Char → Bool) (format s : List Char) :
    ∀ w ∈ (spellAcc dict format s).1, dict w = false :=
  (spellStep_fold_inv dict s (words (format == ['c']) s) [] [] []
    List.nodup_nil (by simp) (by simp)).2.2.1

/-- The position list accumulated by a rule invocation holds exactly the
tokenizer spans whose word fails the dictionary, in tokenizer order: one
entry per flagged occurrence, repeats included. -/
theorem spellAcc_posWords (dict : List Char → Bool) (format s : List Char) :
    (spellAcc dict format s).2.2 =
      (words (format == ['c']) s).filter (fun sp => ! dict (wordAt s sp)) :=
  (spellStep_fold_inv dict s (words (format == ['c']) s) [] [] []
    List.nodup_nil (by simp) (by simp)).2.2.2

/-- `sort_unstable` output is sorted by `wordLe`. -/
theorem sortWords_sorted (ws : List (List Char)) :
    List.Sorted wordLe (sortWords ws) :=
  List.sorted_insertionSort wordLe ws

/-- `sort_unstable` output is a permutation of its input. -/
theorem sortWords_perm (ws : List (List Char)) :
    List.Perm (sortWords ws) ws :=
  List.perm_insertionSort wordLe ws

/-! ## Claim theorems -/

/-- C2: For every string and every dictionary, after a spelling rule's loop
completes, the misspelled-word list contains no duplicates, the span list
holds exactly one entry per flagged occurrence — the tokenizer spans whose
word fails the dictionary, in order, repeats included (so a misspelled word
occurring twice contributes one word-list entry and two span-list entries) —
and the sorted list the message is built from still names each word once. -/
theorem spelling_accumulator_invariants (dict : List Char → Bool)
    (format s : List Char) :
    (spellAcc dict format s).1.Nodup ∧
    (spellAcc dict format s).2.2
      = (words (format == ['c']) s).filter (fun sp => ! dict (wordAt s sp)) ∧
    (sortWords (spellAcc dict format s).1).Nodup :=
  ⟨spellAcc_nodup dict format s, spellAcc_posWords dict format s,
    ((sortWords_perm _).nodup_iff).mpr (spellAcc_nodup dict format s)⟩

/-- C3: For every entry and every pair of input strings, if the dictionary
bound to a spelling rule is absent (`dict_id` for the source rule,
`dict_str` for the translation rule), that rule's check emits no diagnostic
and raises no error (the model is total), regardless of the strings'
content. -/
theorem absent_dictionary_no_diagnostic (dId dStr : Option (List Char → Bool))
    (entry : Entry) (msgid msgstr : List Char) :
    SpellingIdRule.check_msg ⟨none, dStr⟩ entry msgid msgstr = [] ∧
    SpellingStrRule.check_msg ⟨dId, none⟩ entry msgid msgstr = [] := by
  constructor
  · simp [SpellingIdRule.check_msg, SpellingIdRule.acc]
  · simp [SpellingStrRule.check_msg, SpellingStrRule.acc]

/-- C6: In format-aware mode (format tag `"c"`), tokenizing `"%05d"` yields
no word spans: the `%` encountered with no word in progress makes the cursor
jump past the conversion specifier via the Format Specifier Scanner (the
specifier's interior is never yielded as a word), the jump reaches the end
of the buffer, and the very first `next` call already terminates the
iteration. -/
theorem format_aware_specifier_skipped :
    words true "%05d".toList = [] ∧
    nextAux true 0 none none "%05d".toList = none := by
  have h : nextAux true 0 none none "%05d".toList = none := by
    simp [nextAux, isAlphanumeric, get_index_end_c_format, scanWidth,
      scanPrecision, scanConversion, isFlagChar, isLengthModifier,
      isPrintableAscii, utf8Len]
    try decide
  refine ⟨?_, h⟩
  rw [words]
  rw [wordsFrom, h]

/-- C7: Without format-awareness (empty format tag), tokenizing `"%05d"`
yields exactly one word span, the half-open byte range `(1, 4)` covering the
text `"05d"` and excluding the leading `%`. -/
theorem format_unaware_specifier_word :
    words false "%05d".toList = [(1, 4)] ∧
    wordAt "%05d".toList (1, 4) = "05d".toList := by
  constructor
  · simp [words, wordsFrom, nextAux, isAlphanumeric]
    try decide
  · decide

/-- C8: A hyphen extends the current word only when a word is already in
progress and never starts a word: with no word in progress a leading hyphen
is skipped exactly like any other non-word character, while with a word in
progress it is absorbed into the word (extending `idx_end` past it); in
particular `"test-word"` tokenizes to the single span `(0, 9)` covering the
whole hyphenated token, in both tokenizer modes. -/
theorem hyphen_extends_never_starts (skip : Bool) (pos a0 : Nat)
    (e : Option Nat) (cs : List Char) :
    nextAux skip pos none none ('-' :: cs) = nextAux skip (pos + 1) none none cs ∧
    nextAux skip pos (some a0) e ('-' :: cs)
      = nextAux skip (pos + 1) (some a0) (some (pos + 1)) cs ∧
    words false "test-word".toList = [(0, 9)] ∧
    words true "test-word".toList = [(0, 9)] := by
  have hd : ('-' : Char).utf8Size = 1 := by decide
  have hna : isAlphanumeric '-' = false := by decide
  refine ⟨?_, ?_, ?_, ?_⟩
  · rw [nextAux.eq_def]
    dsimp only
    simp [hna, hd]
  · rw [nextAux.eq_def]
    dsimp only
    simp [hna, hd]
  · simp [words, wordsFrom, nextAux, isAlphanumeric]
    try decide
  · simp [words, wordsFrom, nextAux, isAlphanumeric]
    try decide

/-- C9: Every span `(start, end)` yielded by the tokenizer satisfies
`start < end ≤` byte length of the string, and both offsets are UTF-8
character boundaries — exactly the conditions under which Rust's slice
`&s[start..end]`, as the spelling rules perform it, cannot panic.  (Every
`List Char` models a well-formed Unicode string.) -/
theorem tokenizer_spans_safe (skip : Bool) (cs : List Char) :
    ∀ sp ∈ words skip cs,
      sp.1 < sp.2 ∧ sp.2 ≤ utf8Len cs ∧ IsBoundary cs sp.1 ∧ IsBoundary cs sp.2 :=
  words_mem_spec skip cs

/-- Witness for C9 at the concrete string `"ab"` and its span `(0, 2)`. -/
theorem tokenizer_spans_safe_witness :
    (0, 2) ∈ words false "ab".toList ∧
      ((0, 2).1 < (0, 2).2 ∧ (0, 2).2 ≤ utf8Len "ab".toList ∧
        IsBoundary "ab".toList (0, 2).1 ∧ IsBoundary "ab".toList (0, 2).2) := by
  have hw : words false "ab".toList = [(0, 2)] := by
    simp [words, wordsFrom, nextAux, isAlphanumeric]
    try decide
  have hm : (0, 2) ∈ words false "ab".toList := by
    rw [hw]
    simp
  exact ⟨hm, tokenizer_spans_safe false "ab".toList (0, 2) hm⟩

/-- C10: The spans yielded by one tokenizer instance are strictly ordered
and pairwise disjoint (each span ends no later than any later span starts),
the sequence is finite (at most one span per character), and the internal
cursor never moves backwards across a `next` call, from the fresh state or
from the mid-word state. -/
theorem tokenizer_spans_ordered (skip : Bool) (cs : List Char) :
    List.Pairwise (fun a b : Nat × Nat => a.2 ≤ b.1) (words skip cs) ∧
    (words skip cs).length ≤ cs.length ∧
    (∀ (pos : Nat) (sp : Nat × Nat) (pos' : Nat) (rest : List Char),
       nextAux skip pos none none cs = some (sp, pos', rest) → pos ≤ pos') ∧
    (∀ (pos a0 : Nat) (sp : Nat × Nat) (pos' : Nat) (rest : List Char),
       nextAux skip pos (some a0) (some pos) cs = some (sp, pos', rest)
         → pos ≤ pos') := by
  refine ⟨wordsFrom_pairwise skip (cs.length + 1) 0 cs,
    wordsFrom_length_le skip (cs.length + 1) 0 cs, ?_, ?_⟩
  · intro pos sp pos' rest h
    rcases nextAux_none_spec skip cs.length cs (le_refl _) pos with hnone | hsome
    · rw [hnone] at h
      cases h
    · obtain ⟨a, b, pre, rest', heq, _, _, _, _, _, _, _⟩ := hsome
      rw [heq] at h
      simp only [Option.some_inj, Prod.mk.injEq] at h
      obtain ⟨h1, h2, h3⟩ := h
      omega
  · intro pos a0 sp pos' rest h
    obtain ⟨b, pre, rest', heq, _, _, _, _⟩ := nextAux_some_spec skip cs pos a0
    rw [heq] at h
    simp only [Option.some_inj, Prod.mk.injEq] at h
    obtain ⟨h1, h2, h3⟩ := h
    omega

/-- Witness for C10 at the concrete string `"ab"` with one `next` call from
the fresh state and one from a mid-word state. -/
theorem tokenizer_spans_ordered_witness :
    nextAux false 0 none none "ab".toList = some ((0, 2), 2, []) ∧
    nextAux false 5 (some 3) (some 5) "ab".toList = some ((3, 7), 7, []) ∧
    (0 : Nat) ≤ 2 ∧ (5 : Nat) ≤ 7 := by
  have h1 : nextAux false 0 none none "ab".toList = some ((0, 2), 2, []) := by
    simp [nextAux, isAlphanumeric]
    try decide
  have h2 : nextAux false 5 (some 3) (some 5) "ab".toList = some ((3, 7), 7, []) := by
    simp [nextAux, isAlphanumeric]
    try decide
  exact ⟨h1, h2,
    (tokenizer_spans_ordered false "ab".toList).2.2.1 0 (0, 2) 2 [] h1,
    (tokenizer_spans_ordered false "ab".toList).2.2.2 5 3 (3, 7) 7 [] h2⟩

/-- C1: For every entry whose source text is `"this is a tyypo"` and a bound
source dictionary recognizing none of `a`, `is`, `this`, `tyypo`, one
invocation of the source rule's check emits exactly one diagnostic whose
message is `"misspelled words in source: a, is, this, tyypo"` (the distinct
misspelled words in sorted order) and whose source-span list has exactly
four spans. -/
theorem spelling_id_typo_message (fmt msgstr : List Char)
    (dStr : Option (List Char → Bool)) (dict : List Char → Bool)
    (h1 : dict "this".toList = false) (h2 : dict "is".toList = false)
    (h3 : dict "a".toList = false) (h4 : dict "tyypo".toList = false) :
    SpellingIdRule.check_msg ⟨some dict, dStr⟩ ⟨fmt⟩
        "this is a tyypo".toList msgstr
      = [{ message := "misspelled words in source: a, is, this, tyypo".toList,
           source := "this is a tyypo".toList,
           posSource := [(0, 4), (5, 7), (8, 9), (10, 15)],
           translated := msgstr,
           posTranslated := [] }] ∧
    [(0, 4), (5, 7), (8, 9), (10, 15)].length = 4 := by
  have hs : "this is a tyypo".toList
      = ['t', 'h', 'i', 's', ' ', 'i', 's', ' ', 'a', ' ', 't', 'y', 'y', 'p', 'o'] := by
    decide
  have hth : "this".toList = ['t', 'h', 'i', 's'] := by decide
  have his : "is".toList = ['i', 's'] := by decide
  have hal : "a".toList = ['a'] := by decide
  have hty : "tyypo".toList = ['t', 'y', 'y', 'p', 'o'] := by decide
  rw [hth] at h1
  rw [his] at h2
  rw [hal] at h3
  rw [hty] at h4
  have hwords : ∀ sk : Bool,
      words sk ['t', 'h', 'i', 's', ' ', 'i', 's', ' ', 'a', ' ', 't', 'y', 'y', 'p', 'o']
        = [(0, 4), (5, 7), (8, 9), (10, 15)] := by
    intro sk
    cases sk
    · simp [words, wordsFrom, nextAux, isAlphanumeric]
      try decide
    · simp [words, wordsFrom, nextAux, isAlphanumeric]
      try decide
  have e1 : wordAt ['t', 'h', 'i', 's', ' ', 'i', 's', ' ', 'a', ' ', 't', 'y', 'y', 'p', 'o']
      (0, 4) = ['t', 'h', 'i', 's'] := by decide
  have e2 : wordAt ['t', 'h', 'i', 's', ' ', 'i', 's', ' ', 'a', ' ', 't', 'y', 'y', 'p', 'o']
      (5, 7) = ['i', 's'] := by decide
  have e3 : wordAt ['t', 'h', 'i', 's', ' ', 'i', 's', ' ', 'a', ' ', 't', 'y', 'y', 'p', 'o']
      (8, 9) = ['a'] := by decide
  have e4 : wordAt ['t', 'h', 'i', 's', ' ', 'i', 's', ' ', 'a', ' ', 't', 'y', 'y', 'p', 'o']
      (10, 15) = ['t', 'y', 'y', 'p', 'o'] := by decide
  have m2 : (['i', 's'] ∈ [['t', 'h', 'i', 's']]) = False := eq_false (by decide)
  have m3 : ((['a'] : List Char) ∈ [['i', 's'], ['t', 'h', 'i', 's']]) = False :=
    eq_false (by decide)
  have m4 : (['t', 'y', 'y', 'p', 'o']
      ∈ [['a'], ['i', 's'], ['t', 'h', 'i', 's']]) = False := eq_false (by decide)
  have hacc : spellAcc dict fmt
      ['t', 'h', 'i', 's', ' ', 'i', 's', ' ', 'a', ' ', 't', 'y', 'y', 'p', 'o']
      = ([['t', 'h', 'i', 's'], ['i', 's'], ['a'], ['t', 'y', 'y', 'p', 'o']],
         [['t', 'y', 'y', 'p', 'o'], ['a'], ['i', 's'], ['t', 'h', 'i', 's']],
         [(0, 4), (5, 7), (8, 9), (10, 15)]) := by
    rw [spellAcc, hwords]
    simp [spellStep, e1, e2, e3, e4, h1, h2, h3, h4, m2, m3, m4]
  have haccR : SpellingIdRule.acc ⟨some dict, dStr⟩ ⟨fmt⟩
      ['t', 'h', 'i', 's', ' ', 'i', 's', ' ', 'a', ' ', 't', 'y', 'y', 'p', 'o']
      = ([['t', 'h', 'i', 's'], ['i', 's'], ['a'], ['t', 'y', 'y', 'p', 'o']],
         [['t', 'y', 'y', 'p', 'o'], ['a'], ['i', 's'], ['t', 'h', 'i', 's']],
         [(0, 4), (5, 7), (8, 9), (10, 15)]) := hacc
  have hmsg : "misspelled words in source: ".toList
        ++ joinComma (sortWords
          [['t', 'h', 'i', 's'], ['i', 's'], ['a'], ['t', 'y', 'y', 'p', 'o']])
      = "misspelled words in source: a, is, this, tyypo".toList := by decide
  refine ⟨?_, rfl⟩
  rw [hs, SpellingIdRule.check_msg, haccR]
  rw [if_neg (by simp)]
  rw [hmsg]

/-- Witness for C1 with the everywhere-false dictionary, empty format tag
and empty translated string. -/
theorem spelling_id_typo_message_witness :
    ((fun _ : List Char => false) "this".toList = false)
    ∧ ((fun _ : List Char => false) "is".toList = false)
    ∧ ((fun _ : List Char => false) "a".toList = false)
    ∧ ((fun _ : List Char => false) "tyypo".toList = false)
    ∧ (SpellingIdRule.check_msg ⟨some (fun _ => false), none⟩ ⟨[]⟩
          "this is a tyypo".toList []
        = [{ message :=
               "misspelled words in source: a, is, this, tyypo".toList,
             source := "this is a tyypo".toList,
             posSource := [(0, 4), (5, 7), (8, 9), (10, 15)],
             translated := [],
             posTranslated := [] }]
       ∧ [(0, 4), (5, 7), (8, 9), (10, 15)].length = 4) :=
  ⟨rfl, rfl, rfl, rfl,
    spelling_id_typo_message [] [] none (fun _ => false) rfl rfl rfl rfl⟩

/-- C4: For each rule, a diagnostic is emitted exactly when the accumulated
misspelled-word list is non-empty, and the emitted diagnostic's message is
the fixed prefix followed by the distinct misspelled words sorted in
ascending Unicode code-point order and joined by `", "`. -/
theorem diagnostic_message_sorted_join (checker : Checker) (entry : Entry)
    (msgid msgstr : List Char) :
    (SpellingIdRule.check_msg checker entry msgid msgstr = []
       ↔ (SpellingIdRule.acc checker entry msgid).1 = []) ∧
    (∀ d ∈ SpellingIdRule.check_msg checker entry msgid msgstr,
       ∃ ws, List.Perm ws (SpellingIdRule.acc checker entry msgid).1 ∧
         List.Sorted wordLe ws ∧ ws.Nodup ∧ ws ≠ [] ∧
         d.message = "misspelled words in source: ".toList ++ joinComma ws) ∧
    (SpellingStrRule.check_msg checker entry msgid msgstr = []
       ↔ (SpellingStrRule.acc checker entry msgstr).1 = []) ∧
    (∀ d ∈ SpellingStrRule.check_msg checker entry msgid msgstr,
       ∃ ws, List.Perm ws (SpellingStrRule.acc checker entry msgstr).1 ∧
         List.Sorted wordLe ws ∧ ws.Nodup ∧ ws ≠ [] ∧
         d.message = "misspelled words in translation: ".toList
           ++ joinComma ws) := by
  obtain ⟨dId, dStr⟩ := checker
  have hnodupId : (SpellingIdRule.acc ⟨dId, dStr⟩ entry msgid).1.Nodup := by
    rcases dId with _ | dict
    · exact List.nodup_nil
    · exact spellAcc_nodup dict entry.format msgid
  have hnodupStr : (SpellingStrRule.acc ⟨dId, dStr⟩ entry msgstr).1.Nodup := by
    rcases dStr with _ | dict
    · exact List.nodup_nil
    · exact spellAcc_nodup dict entry.format msgstr
  refine ⟨?_, ?_, ?_, ?_⟩
  · rw [SpellingIdRule.check_msg]
    by_cases hm : (SpellingIdRule.acc ⟨dId, dStr⟩ entry msgid).1 = []
    · rw [if_pos hm]
      simp [hm]
    · rw [if_neg hm]
      simp [hm]
  · intro d hd
    rw [SpellingIdRule.check_msg] at hd
    by_cases hm : (SpellingIdRule.acc ⟨dId, dStr⟩ entry msgid).1 = []
    · rw [if_pos hm] at hd
      simp at hd
    · rw [if_neg hm] at hd
      simp only [List.mem_singleton] at hd
      subst hd
      refine ⟨sortWords (SpellingIdRule.acc ⟨dId, dStr⟩ entry msgid).1,
        sortWords_perm _, sortWords_sorted _,
        ((sortWords_perm _).nodup_iff).mpr hnodupId, ?_, rfl⟩
      intro hws
      have hlen := (sortWords_perm
        (SpellingIdRule.acc ⟨dId, dStr⟩ entry msgid).1).length_eq
      rw [hws] at hlen
      simp at hlen
      exact hm (List.length_eq_zero.mp hlen.symm)
  · rw [SpellingStrRule.check_msg]
    by_cases hm : (SpellingStrRule.acc ⟨dId, dStr⟩ entry msgstr).1 = []
    · rw [if_pos hm]
      simp [hm]
    · rw [if_neg hm]
      simp [hm]
  · intro d hd
    rw [SpellingStrRule.check_msg] at hd
    by_cases hm : (SpellingStrRule.acc ⟨dId, dStr⟩ entry msgstr).1 = []
    · rw [if_pos hm] at hd
      simp at hd
    · rw [if_neg hm] at hd
      simp only [List.mem_singleton] at hd
      subst hd
      refine ⟨sortWords (SpellingStrRule.acc ⟨dId, dStr⟩ entry msgstr).1,
        sortWords_perm _, sortWords_sorted _,
        ((sortWords_perm _).nodup_iff).mpr hnodupStr, ?_, rfl⟩
      intro hws
      have hlen := (sortWords_perm
        (SpellingStrRule.acc ⟨dId, dStr⟩ entry msgstr).1).length_eq
      rw [hws] at hlen
      simp at hlen
      exact hm (List.length_eq_zero.mp hlen.symm)

/-- C5: Every diagnostic of the source-variant rule has an empty
translated-string span list and all its flagged spans lie in the source
string; every diagnostic of the translation-variant rule has an empty
source-string span list and all its flagged spans lie in the translated
string; both carry both full original strings. -/
theorem diagnostic_span_sides (checker : Checker) (entry : Entry)
    (msgid msgstr : List Char) :
    (∀ d ∈ SpellingIdRule.check_msg checker entry msgid msgstr,
       d.posTranslated = [] ∧ d.source = msgid ∧ d.translated = msgstr ∧
       ∀ sp ∈ d.posSource, sp.1 < sp.2 ∧ sp.2 ≤ utf8Len msgid) ∧
    (∀ d ∈ SpellingStrRule.check_msg checker entry msgid msgstr,
       d.posSource = [] ∧ d.source = msgid ∧ d.translated = msgstr ∧
       ∀ sp ∈ d.posTranslated, sp.1 < sp.2 ∧ sp.2 ≤ utf8Len msgstr) := by
  obtain ⟨dId, dStr⟩ := checker
  constructor
  · intro d hd
    rw [SpellingIdRule.check_msg] at hd
    by_cases hm : (SpellingIdRule.acc ⟨dId, dStr⟩ entry msgid).1 = []
    · rw [if_pos hm] at hd
      simp at hd
    · rw [if_neg hm] at hd
      simp only [List.mem_singleton] at hd
      subst hd
      refine ⟨rfl, rfl, rfl, ?_⟩
      intro sp hsp
      rcases dId with _ | dict
      · simp [SpellingIdRule.acc] at hsp
      · have hpos : (SpellingIdRule.acc ⟨some dict, dStr⟩ entry msgid).2.2
            = (words (entry.format == ['c']) msgid).filter
                (fun sp => ! dict (wordAt msgid sp)) :=
          spellAcc_posWords dict entry.format msgid
        rw [hpos] at hsp
        have hw := List.mem_of_mem_filter hsp
        have := words_mem_spec (entry.format == ['c']) msgid sp hw
        exact ⟨this.1, this.2.1⟩
  · intro d hd
    rw [SpellingStrRule.check_msg] at hd
    by_cases hm : (SpellingStrRule.acc ⟨dId, dStr⟩ entry msgstr).1 = []
    · rw [if_pos hm] at hd
      simp at hd
    · rw [if_neg hm] at hd
      simp only [List.mem_singleton] at hd
      subst hd
      refine ⟨rfl, rfl, rfl, ?_⟩
      intro sp hsp
      rcases dStr with _ | dict
      · simp [SpellingStrRule.acc] at hsp
      · have hpos : (SpellingStrRule.acc ⟨dId, some dict⟩ entry msgstr).2.2
            = (words (entry.format == ['c']) msgstr).filter
                (fun sp => ! dict (wordAt msgstr sp)) :=
          spellAcc_posWords dict entry.format msgstr
        rw [hpos] at hsp
        have hw := List.mem_of_mem_filter hsp
        have := words_mem_spec (entry.format == ['c']) msgstr sp hw
        exact ⟨this.1, this.2.1⟩

/-- Concrete run of the source rule on `"ab"` with the everywhere-false
dictionary, used by the witnesses below. -/
theorem check_msg_id_ab :
    SpellingIdRule.check_msg ⟨some (fun _ => false), none⟩ ⟨[]⟩ "ab".toList []
      = [{ message := "misspelled words in source: ab".toList,
           source := "ab".toList, posSource := [(0, 2)],
           translated := [], posTranslated := [] }] := by
  have hsab : "ab".toList = ['a', 'b'] := by decide
  have hb : ((([] : List Char)) == ['c']) = false := by decide
  have hw : words (((([] : List Char)) == ['c'])) ['a', 'b'] = [(0, 2)] := by
    rw [hb]
    simp [words, wordsFrom, nextAux, isAlphanumeric]
    try decide
  have e1 : wordAt ['a', 'b'] (0, 2) = ['a', 'b'] := by decide
  have hacc : spellAcc (fun _ => false) [] ['a', 'b']
      = ([['a', 'b']], [['a', 'b']], [(0, 2)]) := by
    rw [spellAcc, hw]
    simp [spellStep, e1]
  have haccR : SpellingIdRule.acc ⟨some (fun _ => false), none⟩ ⟨[]⟩ ['a', 'b']
      = ([['a', 'b']], [['a', 'b']], [(0, 2)]) := hacc
  have hmsg : "misspelled words in source: ".toList
        ++ joinComma (sortWords [['a', 'b']])
      = "misspelled words in source: ab".toList := by decide
  rw [hsab, SpellingIdRule.check_msg, haccR]
  rw [if_neg (by simp)]
  rw [hmsg]

/-- Concrete run of the translation rule on `"ab"` with the everywhere-false
dictionary, used by the witnesses below. -/
theorem check_msg_str_ab :
    SpellingStrRule.check_msg ⟨none, some (fun _ => false)⟩ ⟨[]⟩ [] "ab".toList
      = [{ message := "misspelled words in translation: ab".toList,
           source := [], posSource := [],
           translated := "ab".toList, posTranslated := [(0, 2)] }] := by
  have hsab : "ab".toList = ['a', 'b'] := by decide
  have hb : ((([] : List Char)) == ['c']) = false := by decide
  have hw : words (((([] : List Char)) == ['c'])) ['a', 'b'] = [(0, 2)] := by
    rw [hb]
    simp [words, wordsFrom, nextAux, isAlphanumeric]
    try decide
  have e1 : wordAt ['a', 'b'] (0, 2) = ['a', 'b'] := by decide
  have hacc : spellAcc (fun _ => false) [] ['a', 'b']
      = ([['a', 'b']], [['a', 'b']], [(0, 2)]) := by
    rw [spellAcc, hw]
    simp [spellStep, e1]
  have haccR : SpellingStrRule.acc ⟨none, some (fun _ => false)⟩ ⟨[]⟩ ['a', 'b']
      = ([['a', 'b']], [['a', 'b']], [(0, 2)]) := hacc
  have hmsg : "misspelled words in translation: ".toList
        ++ joinComma (sortWords [['a', 'b']])
      = "misspelled words in translation: ab".toList := by decide
  rw [hsab, SpellingStrRule.check_msg, haccR]
  rw [if_neg (by simp)]
  rw [hmsg]

/-- Witness for C4 at a concrete one-word run of each rule. -/
theorem diagnostic_message_sorted_join_witness :
    (∃ ws, List.Perm ws
        (SpellingIdRule.acc ⟨some (fun _ => false), none⟩ ⟨[]⟩ "ab".toList).1 ∧
      List.Sorted wordLe ws ∧ ws.Nodup ∧ ws ≠ [] ∧
      ("misspelled words in source: ab".toList : List Char)
        = "misspelled words in source: ".toList ++ joinComma ws) ∧
    (∃ ws, List.Perm ws
        (SpellingStrRule.acc ⟨none, some (fun _ => false)⟩ ⟨[]⟩ "ab".toList).1 ∧
      List.Sorted wordLe ws ∧ ws.Nodup ∧ ws ≠ [] ∧
      ("misspelled words in translation: ab".toList : List Char)
        = "misspelled words in translation: ".toList ++ joinComma ws) := by
  constructor
  · have hmem : Diagnostic.mk "misspelled words in source: ab".toList
        "ab".toList [(0, 2)] [] []
        ∈ SpellingIdRule.check_msg ⟨some (fun _ => false), none⟩ ⟨[]⟩
            "ab".toList [] := by
      rw [check_msg_id_ab]
      simp
    have h := (diagnostic_message_sorted_join ⟨some (fun _ => false), none⟩
      ⟨[]⟩ "ab".toList []).2.1 _ hmem
    simpa using h
  · have hmem : Diagnostic.mk "misspelled words in translation: ab".toList
        [] [] "ab".toList [(0, 2)]
        ∈ SpellingStrRule.check_msg ⟨none, some (fun _ => false)⟩ ⟨[]⟩
            [] "ab".toList := by
      rw [check_msg_str_ab]
      simp
    have h := (diagnostic_message_sorted_join ⟨none, some (fun _ => false)⟩
      ⟨[]⟩ [] "ab".toList).2.2.2 _ hmem
    simpa using h

/-- Witness for C5 at a concrete run of each rule. -/
theorem diagnostic_span_sides_witness :
    ((0, 2).1 < (0, 2).2 ∧ (0, 2).2 ≤ utf8Len "ab".toList) ∧
    ((0, 2).1 < (0, 2).2 ∧ (0, 2).2 ≤ utf8Len "ab".toList) := by
  constructor
  · have hmem : Diagnostic.mk "misspelled words in source: ab".toList
        "ab".toList [(0, 2)] [] []
        ∈ SpellingIdRule.check_msg ⟨some (fun _ => false), none⟩ ⟨[]⟩
            "ab".toList [] := by
      rw [check_msg_id_ab]
      simp
    have h := (diagnostic_span_sides ⟨some (fun _ => false), none⟩ ⟨[]⟩
      "ab".toList []).1 _ hmem
    exact h.2.2.2 (0, 2) (by simp)
  · have hmem : Diagnostic.mk "misspelled words in translation: ab".toList
        [] [] "ab".toList [(0, 2)]
        ∈ SpellingStrRule.check_msg ⟨none, some (fun _ => false)⟩ ⟨[]⟩
            [] "ab".toList := by
      rw [check_msg_str_ab]
      simp
    have h := (diagnostic_span_sides ⟨none, some (fun _ => false)⟩ ⟨[]⟩
      [] "ab".toList).2 _ hmem
    exact h.2.2.2 (0, 2) (by simp)

end Poexam
